import Mathlib

/-!
Verification of the professor/groups record-linkage core of the `rubik` scraper.

The development shallowly embeds, over `List Char` strings:
  * `scraper/parsers/utils.py`: `remove_academic_title`;
  * `scraper/linker.py`: `ProfessorGroupsLinker` (`_normalize_name`, `_get_tokens`,
    `_build_indexes`, `_match_professor`, `_process_groups`);
  * `scraper/parsers/professors.py`: `ProfessorRatingsParser.consolidate` / `_merge`.

Python strings are modelled as `List Char`.  `str.upper`, `str.isspace` and the
`\s` regex class are modelled on the alphabet this repository actually processes
(ASCII plus the Spanish accented vowels, `ü`/`Ü` and `ñ`/`Ñ`); floating point
ratings are modelled as `ℚ`, which agrees with IEEE doubles on the exactly
representable (dyadic) inputs used by the concrete claims.
-/

/-- Alias for the model of Python strings. -/
abbrev Str := List Char

/-- Model of Python `str.isspace` / regex `\s` on one character
(space, tab, carriage return, line feed). -/
def isspace (c : Char) : Bool := c.isWhitespace

/-- Model of Python `str.upper` on one character, restricted to ASCII plus the
Spanish accented letters occurring in the scraped data. -/
def pyUpper (c : Char) : Char :=
  if c = 'á' then 'Á' else if c = 'é' then 'É' else if c = 'í' then 'Í'
  else if c = 'ó' then 'Ó' else if c = 'ú' then 'Ú' else if c = 'ü' then 'Ü'
  else if c = 'ñ' then 'Ñ' else c.toUpper

/-- Model of Python `str.strip()`: drop leading and trailing whitespace. -/
def strip (s : Str) : Str :=
  ((s.dropWhile isspace).reverse.dropWhile isspace).reverse

/-- Model of Python `str.lstrip(". ")`: drop leading dots and spaces. -/
def lstrip_dot_space (s : Str) : Str :=
  s.dropWhile (fun c => c == '.' || c == ' ')

/-- Model of Python `str.startswith` (first argument is the candidate prefix). -/
def starts_with : Str → Str → Bool
  | [], _ => true
  | _ :: _, [] => false
  | c :: cs, d :: ds => c == d && starts_with cs ds

/-- `ACADEMIC_TITLES` from `scraper/parsers/utils.py` (a Python set literal; the
literal's one duplicate entry `"PH.D"` is kept — it is harmless, since the title
scan below only depends on which strings are present). -/
def ACADEMIC_TITLES : List Str :=
  (["DR", "DR.", "DRA", "DRA.", "DOC", "DOC.",
    "M.C.", "MC", "M.C", "MC.",
    "M.C.Q.", "MCQ", "MCQ.", "M.C.Q", "MC.Q", "M.CQ",
    "M.I.", "MI", "M.I", "MI.",
    "M.A.", "MA", "MA.", "M.A",
    "M.E.", "ME", "ME.", "M.E",
    "MTRO", "MTRO.", "MTRA", "MTRA.",
    "M.SC.", "MSC", "M.SC", "MSC.",
    "ING", "ING.", "LIC", "LIC.", "ARQ", "ARQ.", "PROF", "PROF.",
    "C.P.", "CP", "CP.", "C.P",
    "L.C.C.", "LCC", "LCC.", "L.C.C", "L.CC", "LC.C",
    "L.A.", "LA", "LA.", "L.A",
    "C.D.", "CD", "CD.", "C.D",
    "Q.F.B.", "QFB", "QFB.", "Q.F.B", "Q.FB", "QF.B",
    "M.D.", "MD", "MD.", "M.D",
    "PH.D.", "PHD", "PHD.", "PH.D", "PH.D", "P.H.D."] : List String).map String.toList

/-- Insert a string into a list kept sorted by length, longest first
(one step of the stable insertion sort modelling Python's
`sorted(..., key=len, reverse=True)`). -/
def insert_len_desc (x : Str) : List Str → List Str
  | [] => [x]
  | y :: ys => if y.length < x.length then x :: y :: ys else y :: insert_len_desc x ys

/-- Model of Python `sorted(titles, key=len, reverse=True)` (stable; ties keep
their relative order, which is irrelevant here since distinct titles of equal
length cannot both be a prefix of the same name). -/
def sort_len_desc (l : List Str) : List Str :=
  l.foldl (fun acc x => insert_len_desc x acc) []

/-- The title loop body of `remove_academic_title` (utils.py lines 119-122):
try each title in order; strip the first one that is a prefix of the upper-cased
name and is followed by whitespace or end-of-string. -/
def strip_title (name name_upper : Str) : List Str → Option Str
  | [] => none
  | t :: ts =>
    if starts_with t name_upper &&
        (name.length == t.length ||
          (match name.drop t.length with
           | c :: _ => isspace c
           | [] => false))
    then some (lstrip_dot_space (name.drop t.length))
    else strip_title name name_upper ts

/-- `remove_academic_title` from `scraper/parsers/utils.py`. -/
def remove_academic_title (name : Str) : Str :=
  if name.isEmpty then []
  else
    let stripped := strip name
    let name_upper := stripped.map pyUpper
    match strip_title stripped name_upper (sort_len_desc ACADEMIC_TITLES) with
    | some r => r
    | none => strip stripped

/-- `ProfessorGroupsLinker.CONNECTORS` (linker.py line 20). -/
def CONNECTORS : List Str :=
  (["DE", "DEL", "LA", "LAS", "LOS", "Y"] : List String).map String.toList

/-- The character class kept by `re.sub(r"[^A-ZÑ\s]", "", name)` in
`_normalize_name`: uppercase ASCII letters (code points 65-90, i.e. `A`-`Z`),
`Ñ`, and whitespace. -/
def allowed_char (c : Char) : Bool :=
  (65 ≤ c.toNat && c.toNat ≤ 90) || c == 'Ñ' || isspace c

/-- Model of Python `str.split()` (no separator): split on whitespace runs,
discarding empty pieces. -/
def split_ws (s : Str) : List Str :=
  (s.splitOnP isspace).filter (fun w => !w.isEmpty)

/-- Model of Python `" ".join(ws)`. -/
def join_space (ws : List Str) : Str := [' '].intercalate ws

/-- `ProfessorGroupsLinker._normalize_name` (linker.py lines 79-88): strip a
leading academic title, upper-case and strip, delete every character that is not
`[A-ZÑ\s]`, split on whitespace, drop connector words, re-join with single
spaces.  Note: unlike the parser-side normalizers, this function has no accent
substitution table — accented vowels are deleted by the regex step. -/
def normalize_name (name : Str) : Str :=
  if name.isEmpty then []
  else
    let n1 := remove_academic_title name
    let n2 := strip (n1.map pyUpper)
    let n3 := n2.filter allowed_char
    let ws := (split_ws n3).filter (fun w => !w.isEmpty && !CONNECTORS.contains w)
    join_space ws

/-- The underlying (duplicate-free) token list of `_get_tokens`
(`set(normalized_name.split()) if normalized_name else set()`). -/
def get_tokens_list (s : Str) : List Str :=
  if s.isEmpty then [] else (split_ws s).dedup

/-- `ProfessorGroupsLinker._get_tokens` (linker.py lines 90-92), as a `Finset`. -/
def get_tokens (s : Str) : Finset Str := (get_tokens_list s).toFinset

/-- Lexicographic (code-point) order on strings, modelling Python `str` `<=`. -/
def str_le : Str → Str → Bool
  | [], _ => true
  | _ :: _, [] => false
  | a :: as, b :: bs => if a < b then true else if b < a then false else str_le as bs

/-- One step of insertion sort by `str_le`. -/
def insert_str_asc (x : Str) : List Str → List Str
  | [] => [x]
  | y :: ys => if str_le x y then x :: y :: ys else y :: insert_str_asc x ys

/-- Model of Python `sorted` on a list of distinct strings. -/
def sort_str_asc (l : List Str) : List Str := l.foldr insert_str_asc []

/-- The token-set index key `" ".join(sorted(tokens))` (linker.py line 74). -/
def token_key (normalized : Str) : Str :=
  join_space (sort_str_asc (get_tokens_list normalized))

/-- One canonical professor record, as produced by
`ProfessorRatingsParser._process_entry` and consumed by the linker. -/
structure Professor where
  id : Nat
  full_name : Str
  first_name : Str
  last_name : Str
  num_ratings : Nat
  rating : ℚ
deriving DecidableEq

/-- One group record as the linker sees it: the raw `professor` name field
(`group.get("professor", "")`; a missing key behaves as `""`) and the
`professor_id` field (`none` = key absent, `some none` = JSON `null`,
`some (some i)` = a roster id). -/
structure GroupRec where
  professor : Str
  professor_id : Option (Option Nat)
deriving DecidableEq

/-- Append a value to the bucket of `k` in an insertion-ordered association
list, adding a new bucket at the end if `k` is absent — the model of
`defaultdict(list)` updates together with Python-dict iteration order. -/
def add_bucket : List (Str × List Professor) → Str → Professor → List (Str × List Professor)
  | [], k, p => [(k, [p])]
  | (k', ps) :: rest, k, p =>
    if k' = k then (k', ps ++ [p]) :: rest else (k', ps) :: add_bucket rest k p

/-- `professor_by_tokens` as built by `_build_indexes` (linker.py lines 65-77). -/
def build_token_index (profs : List Professor) : List (Str × List Professor) :=
  profs.foldl (fun m p => add_bucket m (token_key (normalize_name p.full_name)) p) []

/-- Lookup in `professor_by_normalized` (built with last-write-wins in
`_build_indexes`): the last professor whose normalized `full_name` is `key`. -/
def lookup_by_normalized (profs : List Professor) (key : Str) : Option Professor :=
  (profs.filter (fun p => decide (normalize_name p.full_name = key))).getLast?

/-- The token-subset candidate collection of `_match_professor`
(linker.py lines 177-182): for every index bucket whose key's token set is a
subset of the query's token set, append all of the bucket's professors. -/
def collect_matches (index : List (Str × List Professor)) (gt : Finset Str) : List Professor :=
  ((index.filter (fun kv => decide ((split_ws kv.1).toFinset ⊆ gt))).map Prod.snd).flatten

/-- The tie-break sort key `len(self._get_tokens(p.get("full_name", "")))`
(linker.py line 193) — note it is computed from the raw stored `full_name`,
not from its normalization. -/
def token_count (p : Professor) : Nat := (get_tokens p.full_name).card

/-- One step of the stable insertion sort by `token_count`, descending. -/
def insert_desc (p : Professor) : List Professor → List Professor
  | [] => [p]
  | q :: qs => if token_count q < token_count p then p :: q :: qs else q :: insert_desc p qs

/-- Model of `matches.sort(key=..., reverse=True)` (stable, descending). -/
def sort_token_count_desc (l : List Professor) : List Professor :=
  l.foldl (fun acc p => insert_desc p acc) []

/-- `ProfessorGroupsLinker._match_professor` (linker.py lines 160-204):
normalize; empty ⇒ no match; exact-index hit; token-subset stage with the
descending-token-count tie-break when several candidates survive; finally the
reverse-containment fallback scanning `self.professors` in order. -/
def match_professor (profs : List Professor) (professor_name : Str) : Option Professor :=
  let normalized := normalize_name professor_name
  if normalized.isEmpty then none
  else
    match lookup_by_normalized profs normalized with
    | some p => some p
    | none =>
      let group_tokens := get_tokens normalized
      if group_tokens = ∅ then none
      else
        let ms := collect_matches (build_token_index profs) group_tokens
        if ms.length = 1 then ms.head?
        else if 1 < ms.length then (sort_token_count_desc ms).head?
        else profs.find? (fun p => decide (group_tokens ⊆ get_tokens p.full_name))

/-- The per-record mutation of the apply loop in `_process_groups`
(linker.py lines 134-149): an empty raw name leaves the record untouched;
otherwise `professor_id` is set to the matched roster id, or to `null`. -/
def link_record (profs : List Professor) (g : GroupRec) : GroupRec :=
  if g.professor.isEmpty then g
  else { g with professor_id := some ((match_professor profs g.professor).map Professor.id) }

/-- Result of processing one groups file: the mutated records, the `updated`
write flag, and this file's contribution to the three counters. -/
structure FileResult where
  records : List GroupRec
  updated : Bool
  matched : Nat
  total : Nat
  unmatched : Nat
deriving DecidableEq

/-- The body of the apply loop of `_process_groups` (linker.py lines 131-153)
for one file: every record bumps `total_groups`; an empty name is skipped;
a match sets the id, bumps `matched_count` and raises the `updated` flag;
a failed match writes `null` and bumps `unmatched`.  (The per-name
`professor_matches` cache of lines 120-124 stores exactly
`match_professor` of each distinct non-empty name, so the cached lookup is
replaced by the call itself.) -/
def process_file (profs : List Professor) : List GroupRec → FileResult
  | [] => ⟨[], false, 0, 0, 0⟩
  | g :: gs =>
    let r := process_file profs gs
    if g.professor.isEmpty then
      ⟨g :: r.records, r.updated, r.matched, r.total + 1, r.unmatched⟩
    else
      match match_professor profs g.professor with
      | some p =>
        ⟨{ g with professor_id := some (some p.id) } :: r.records,
          true, r.matched + 1, r.total + 1, r.unmatched⟩
      | none =>
        ⟨{ g with professor_id := some none } :: r.records,
          r.updated, r.matched, r.total + 1, r.unmatched + 1⟩

/-- Result of one whole linkage pass over all groups files: per file the
mutated records and whether the file was written back, plus the aggregate
counters returned by `_process_groups`. -/
structure LinkResult where
  files : List (List GroupRec × Bool)
  matched : Nat
  total : Nat
  unmatched : Nat
deriving DecidableEq

/-- `_process_groups` over all files (linker.py lines 94-158), without the
I/O-error branches: counters are summed across files and a file is written
back exactly when its `updated` flag was raised. -/
def process_groups (profs : List Professor) : List (List GroupRec) → LinkResult
  | [] => ⟨[], 0, 0, 0⟩
  | f :: fs =>
    let r := process_file profs f
    let rest := process_groups profs fs
    ⟨(r.records, r.updated) :: rest.files,
      r.matched + rest.matched, r.total + rest.total, r.unmatched + rest.unmatched⟩

/-- The on-disk state a linkage pass leaves behind: a file holds the mutated
records when its `updated` flag was raised, and its old contents otherwise. -/
def disk_after (profs : List Professor) (files : List (List GroupRec)) : List (List GroupRec) :=
  files.map (fun f =>
    if (process_file profs f).updated then (process_file profs f).records else f)

/-- Round a rational to the nearest integer, ties to even — the model of
Python 3 `round` (exact on the dyadic values the claims use). -/
def round_half_even (q : ℚ) : ℤ :=
  if q - ⌊q⌋ < 1/2 then ⌊q⌋
  else if (1 : ℚ)/2 < q - ⌊q⌋ then ⌊q⌋ + 1
  else if ⌊q⌋ % 2 = 0 then ⌊q⌋ else ⌊q⌋ + 1

/-- Model of Python `round(x, 2)`. -/
def py_round2 (q : ℚ) : ℚ := (round_half_even (q * 100) : ℚ) / 100

/-- Model of Python `max(entries, key=lambda x: x.get("num_ratings", 0))`:
scan left to right, keeping the first maximum. -/
def max_by_ratings : Professor → List Professor → Professor
  | best, [] => best
  | best, p :: ps => max_by_ratings (if best.num_ratings < p.num_ratings then p else best) ps

/-- `ProfessorRatingsParser._merge` (professors.py lines 138-162): anchor on
the entry with the most ratings, sum the rating counts, and take the
count-weighted mean rating rounded to two decimals (`0` on an empty total;
the `[]` case is unreachable — `_merge` is only called on groups of size ≥ 2,
where Python's `max` would otherwise raise). -/
def merge : List Professor → Professor
  | [] => ⟨0, [], [], [], 0, 0⟩
  | e :: es =>
    let main := max_by_ratings e es
    let total_ratings : Nat := (e :: es).foldl (fun acc p => acc + p.num_ratings) 0
    let weighted_sum : ℚ :=
      (e :: es).foldl (fun acc p => acc + p.rating * (p.num_ratings : ℚ)) 0
    let avg := if 0 < total_ratings then py_round2 (weighted_sum / (total_ratings : ℚ)) else 0
    ⟨main.id, main.full_name, main.first_name, main.last_name, total_ratings, avg⟩

/-- The grouping loop of `consolidate` (professors.py lines 121-125):
group by `full_name` in first-occurrence order, skipping empty names. -/
def build_groups (l : List Professor) : List (Str × List Professor) :=
  l.foldl (fun m p => if p.full_name.isEmpty then m else add_bucket m p.full_name p) []

/-- `ProfessorRatingsParser.consolidate` (professors.py lines 115-136): drop
entries with at most one rating, group the rest by `full_name`, keep
singletons unchanged and merge larger groups. -/
def consolidate (professors : List Professor) : List Professor :=
  let filtered := professors.filter (fun p => decide (1 < p.num_ratings))
  (build_groups filtered).map (fun kv =>
    match kv.2 with
    | [e] => e
    | es => merge es)

/-! ### Structural lemmas about the string primitives -/

/-- A list of words is `good` when every word is nonempty and whitespace-free —
the shape `split_ws` always produces and `join_space` faithfully inverts. -/
def good_words (ws : List Str) : Prop :=
  ∀ w ∈ ws, w ≠ [] ∧ ∀ c ∈ w, isspace c = false

theorem join_space_nil : join_space [] = [] := rfl

theorem join_space_single (w : Str) : join_space [w] = w := by
  simp [join_space, List.intercalate]

theorem join_space_cons (w : Str) (ws : List Str) (h : ws ≠ []) :
    join_space (w :: ws) = w ++ ' ' :: join_space ws := by
  cases ws with
  | nil => exact absurd rfl h
  | cons b t =>
    simp [join_space, List.intercalate, List.intersperse_cons_cons]

theorem join_space_ne_nil (w : Str) (ws : List Str) (hw : w ≠ []) :
    join_space (w :: ws) ≠ [] := by
  cases ws with
  | nil => simpa [join_space_single] using hw
  | cons b t =>
    rw [join_space_cons _ _ (by simp)]
    simp [hw]

theorem mem_join_space {c : Char} : ∀ {ws : List Str},
    c ∈ join_space ws → (∃ w ∈ ws, c ∈ w) ∨ c = ' '
  | [], h => by simp [join_space_nil] at h
  | [w], h => by
    rw [join_space_single] at h
    exact Or.inl ⟨w, by simp, h⟩
  | w :: b :: t, h => by
    rw [join_space_cons _ _ (by simp)] at h
    rcases List.mem_append.mp h with hw | hrest
    · exact Or.inl ⟨w, List.mem_cons_self _ _, hw⟩
    · rcases List.mem_cons.mp hrest with heq | hmem
      · exact Or.inr heq
      · rcases mem_join_space hmem with ⟨u, hu, hcu⟩ | hsp
        · exact Or.inl ⟨u, List.mem_cons_of_mem _ hu, hcu⟩
        · exact Or.inr hsp

theorem mem_splitOnP {p : Char → Bool} :
    ∀ {s : Str} {w : Str}, w ∈ s.splitOnP p → ∀ {c}, c ∈ w → c ∈ s ∧ p c = false
  | [], w, hw, c, hc => by
    simp [List.splitOnP_nil] at hw
    subst hw
    simp at hc
  | x :: xs, w, hw, c, hc => by
    rw [List.splitOnP_cons] at hw
    by_cases hx : p x
    · rw [if_pos hx] at hw
      rcases List.mem_cons.mp hw with hw' | hw'
      · subst hw'; simp at hc
      · have := mem_splitOnP hw' hc
        exact ⟨List.mem_cons_of_mem _ this.1, this.2⟩
    · rw [if_neg hx] at hw
      rcases hsp : xs.splitOnP p with _ | ⟨hd, tl⟩
      · exact absurd hsp (List.splitOnP_ne_nil _ _)
      · rw [hsp] at hw
        simp only [List.modifyHead] at hw
        rcases List.mem_cons.mp hw with hw' | hw'
        · subst hw'
          rcases List.mem_cons.mp hc with hc' | hc'
          · subst hc'; exact ⟨List.mem_cons_self _ _, eq_false_of_ne_true hx⟩
          · have := mem_splitOnP (s := xs) (w := hd)
              (by rw [hsp]; exact List.mem_cons_self _ _) hc'
            exact ⟨List.mem_cons_of_mem _ this.1, this.2⟩
        · have := mem_splitOnP (s := xs) (w := w)
            (by rw [hsp]; exact List.mem_cons_of_mem _ hw') hc
          exact ⟨List.mem_cons_of_mem _ this.1, this.2⟩

theorem splitOnP_congr {p q : Char → Bool} :
    ∀ {s : Str}, (∀ c ∈ s, p c = q c) → s.splitOnP p = s.splitOnP q
  | [], _ => by simp [List.splitOnP_nil]
  | x :: xs, h => by
    have hx : p x = q x := h x (List.mem_cons_self _ _)
    have ih := splitOnP_congr (s := xs) (fun c hc => h c (List.mem_cons_of_mem _ hc))
    rw [List.splitOnP_cons, List.splitOnP_cons, hx, ih]

theorem split_ws_words {s w : Str} (h : w ∈ split_ws s) :
    w ≠ [] ∧ ∀ c ∈ w, c ∈ s ∧ isspace c = false := by
  rw [split_ws, List.mem_filter] at h
  refine ⟨by simpa using h.2, fun c hc => mem_splitOnP h.1 hc⟩

theorem split_ws_nil : split_ws [] = [] := by
  simp [split_ws, List.splitOnP_nil]

theorem split_join {ws : List Str} (h : good_words ws) : split_ws (join_space ws) = ws := by
  cases ws with
  | nil => rw [join_space_nil, split_ws_nil]
  | cons w t =>
    have hsp : ∀ u ∈ w :: t, (' ' : Char) ∉ u := by
      intro u hu hcu
      have := (h u hu).2 ' ' hcu
      simp [isspace] at this
    have hkey : List.splitOn ' ' ([' '].intercalate (w :: t)) = w :: t :=
      List.splitOn_intercalate (w :: t) ' ' hsp (by simp)
    have hcongr : (join_space (w :: t)).splitOnP isspace =
        (join_space (w :: t)).splitOnP (· == ' ') := by
      apply splitOnP_congr
      intro c hc
      rcases mem_join_space hc with ⟨u, hu, hcu⟩ | hsp'
      · have hns := (h u hu).2 c hcu
        have hne : c ≠ ' ' := by
          intro hceq
          rw [hceq] at hns
          simp [isspace] at hns
        simp [hns, hne]
      · subst hsp'
        simp [isspace]
    have : split_ws (join_space (w :: t)) = (w :: t).filter (fun u => !u.isEmpty) := by
      rw [split_ws, hcongr]
      have : (join_space (w :: t)).splitOnP (· == ' ') = w :: t := by
        simpa [List.splitOn, join_space] using hkey
      rw [this]
    rw [this, List.filter_eq_self.mpr]
    intro u hu
    simpa using (h u hu).1

theorem strip_eq_self {s : Str}
    (hh : ∀ c, s.head? = some c → isspace c = false)
    (hl : ∀ c, s.getLast? = some c → isspace c = false) : strip s = s := by
  have h1 : s.dropWhile isspace = s := by
    cases s with
    | nil => rfl
    | cons a t =>
      rw [List.dropWhile_cons, if_neg]
      simp [hh a rfl]
  rw [strip, h1]
  have h2 : s.reverse.dropWhile isspace = s.reverse := by
    cases hr : s.reverse with
    | nil => rfl
    | cons b u =>
      rw [List.dropWhile_cons, if_neg]
      have hb : s.getLast? = some b := by
        rw [← List.head?_reverse, hr]; rfl
      simp [hl b hb]
  rw [h2, List.reverse_reverse]

theorem head?_join_space {w : Str} (ws : List Str) (hw : w ≠ []) :
    (join_space (w :: ws)).head? = w.head? := by
  cases ws with
  | nil => rw [join_space_single]
  | cons b t =>
    rw [join_space_cons _ _ (by simp)]
    cases w with
    | nil => exact absurd rfl hw
    | cons a u => simp

theorem getLast?_join_space : ∀ {w : Str} {ws : List Str}, good_words (w :: ws) →
    ∃ u ∈ w :: ws, (join_space (w :: ws)).getLast? = u.getLast?
  | w, [], _ => ⟨w, by simp, by rw [join_space_single]⟩
  | w, b :: t, h => by
    obtain ⟨u, hu, hlast⟩ :=
      getLast?_join_space
        (show good_words (b :: t) from fun v hv => h v (List.mem_cons_of_mem _ hv))
    refine ⟨u, List.mem_cons_of_mem _ hu, ?_⟩
    have hnn : join_space (b :: t) ≠ [] :=
      join_space_ne_nil _ _ (h b (List.mem_cons_of_mem _ (List.mem_cons_self _ _))).1
    rw [join_space_cons _ _ (by simp), List.getLast?_append, List.getLast?_cons]
    cases hj : (join_space (b :: t)).getLast? with
    | none => exact absurd (List.getLast?_eq_none_iff.mp hj) hnn
    | some d => rw [hj] at hlast; simp [hlast.symm]

theorem pyUpper_space : pyUpper ' ' = ' ' := by decide

theorem allowed_char_space : allowed_char ' ' = true := by decide

theorem pyUpper_eq_self {c : Char} (h : allowed_char c = true) (hs : isspace c = false) :
    pyUpper c = c := by
  rw [allowed_char, hs] at h
  simp only [Bool.or_false, Bool.or_eq_true, Bool.and_eq_true, decide_eq_true_eq, beq_iff_eq]
    at h
  rcases h with ⟨h65, h90⟩ | hn
  · have hne : ∀ (d : Char), 91 ≤ d.toNat → c ≠ d := by
      intro d hd heq
      subst heq
      omega
    rw [pyUpper, if_neg (hne 'á' (by decide)), if_neg (hne 'é' (by decide)),
      if_neg (hne 'í' (by decide)), if_neg (hne 'ó' (by decide)),
      if_neg (hne 'ú' (by decide)), if_neg (hne 'ü' (by decide)),
      if_neg (hne 'ñ' (by decide))]
    simp only [Char.toUpper]
    rw [if_neg (by omega)]
  · subst hn
    decide

/-- The word list `_normalize_name` joins with single spaces: the
connector-free, nonempty words of the title-stripped, upper-cased, filtered
input. -/
def norm_words (name : Str) : List Str :=
  (split_ws ((strip ((remove_academic_title name).map pyUpper)).filter allowed_char)).filter
    (fun w => !w.isEmpty && !CONNECTORS.contains w)

theorem normalize_name_eq (name : Str) :
    normalize_name name = join_space (norm_words name) := by
  by_cases h : name.isEmpty
  · have hnil : name = [] := by simpa using h
    subst hnil
    rfl
  · simp only [normalize_name, norm_words, h]
    rfl

theorem norm_words_good (name : Str) : good_words (norm_words name) := by
  intro w hw
  rw [norm_words, List.mem_filter] at hw
  have := split_ws_words hw.1
  exact ⟨this.1, fun c hc => (this.2 c hc).2⟩

theorem norm_words_allowed (name : Str) :
    ∀ w ∈ norm_words name, ∀ c ∈ w, allowed_char c = true := by
  intro w hw c hc
  rw [norm_words, List.mem_filter] at hw
  have hmem := (split_ws_words hw.1).2 c hc
  exact (List.mem_filter.mp hmem.1).2

theorem norm_words_keep (name : Str) :
    ∀ w ∈ norm_words name, (!w.isEmpty && !CONNECTORS.contains w) = true := by
  intro w hw
  rw [norm_words, List.mem_filter] at hw
  exact hw.2

theorem normalize_join {ws : List Str} (hgood : good_words ws)
    (hchars : ∀ w ∈ ws, ∀ c ∈ w, allowed_char c = true)
    (hkeep : ∀ w ∈ ws, (!w.isEmpty && !CONNECTORS.contains w) = true)
    (htitle : remove_academic_title (join_space ws) = join_space ws) :
    normalize_name (join_space ws) = join_space ws := by
  by_cases hnil : ws = []
  · subst hnil
    rfl
  · obtain ⟨w, t, rfl⟩ : ∃ w t, ws = w :: t := by
      cases ws with
      | nil => exact absurd rfl hnil
      | cons a b => exact ⟨a, b, rfl⟩
    have hne : join_space (w :: t) ≠ [] :=
      join_space_ne_nil _ _ (hgood w (List.mem_cons_self _ _)).1
    have hmemchar : ∀ c ∈ join_space (w :: t),
        (allowed_char c = true ∧ isspace c = false) ∨ c = ' ' := by
      intro c hc
      rcases mem_join_space hc with ⟨u, hu, hcu⟩ | hsp
      · exact Or.inl ⟨hchars u hu c hcu, (hgood u hu).2 c hcu⟩
      · exact Or.inr hsp
    have hmap : (join_space (w :: t)).map pyUpper = join_space (w :: t) := by
      have := List.map_congr_left (l := join_space (w :: t)) (f := pyUpper) (g := id)
        (by
          intro c hc
          rcases hmemchar c hc with ⟨ha, hs⟩ | hsp
          · exact pyUpper_eq_self ha hs
          · rw [hsp]; exact pyUpper_space)
      rwa [List.map_id] at this
    have hstrip : strip (join_space (w :: t)) = join_space (w :: t) := by
      apply strip_eq_self
      · intro c hc
        rw [head?_join_space t (hgood w (List.mem_cons_self _ _)).1] at hc
        have : c ∈ w := by
          cases w with
          | nil => simp at hc
          | cons a u =>
            rw [List.head?_cons, Option.some_inj] at hc
            subst hc
            exact List.mem_cons_self _ _
        exact (hgood w (List.mem_cons_self _ _)).2 c this
      · intro c hc
        obtain ⟨u, hu, heq⟩ := getLast?_join_space hgood
        rw [heq] at hc
        exact (hgood u hu).2 c (List.mem_of_getLast?_eq_some hc)
    have hfilter : (join_space (w :: t)).filter allowed_char = join_space (w :: t) := by
      apply List.filter_eq_self.mpr
      intro c hc
      rcases hmemchar c hc with ⟨ha, _⟩ | hsp
      · exact ha
      · rw [hsp]; exact allowed_char_space
    rw [normalize_name_eq, norm_words, htitle, hmap, hstrip, hfilter, split_join hgood,
      List.filter_eq_self.mpr hkeep]

theorem remove_academic_title_nil : remove_academic_title [] = [] := rfl

theorem normalize_name_nil : normalize_name [] = [] := rfl

/-! ### Lemmas about the process loop -/

theorem process_file_records (profs : List Professor) (f : List GroupRec) :
    (process_file profs f).records = f.map (link_record profs) := by
  induction f with
  | nil => rfl
  | cons g gs ih =>
    by_cases hp : g.professor.isEmpty
    · simp [process_file, hp, link_record, ih]
    · cases hm : match_professor profs g.professor with
      | some p => simp [process_file, hp, hm, link_record, ih]
      | none => simp [process_file, hp, hm, link_record, ih]

theorem process_file_total (profs : List Professor) (f : List GroupRec) :
    (process_file profs f).total = f.length := by
  induction f with
  | nil => rfl
  | cons g gs ih =>
    by_cases hp : g.professor.isEmpty
    · simp [process_file, hp, ih]
    · cases hm : match_professor profs g.professor with
      | some p => simp [process_file, hp, hm, ih]
      | none => simp [process_file, hp, hm, ih]

theorem process_file_counts (profs : List Professor) (f : List GroupRec) :
    (process_file profs f).matched + (process_file profs f).unmatched =
      f.countP (fun g => !g.professor.isEmpty) := by
  induction f with
  | nil => rfl
  | cons g gs ih =>
    by_cases hp : g.professor.isEmpty
    · simp [process_file, hp, List.countP_cons, ih]
    · cases hm : match_professor profs g.professor with
      | some p =>
        simp only [process_file, hp, Bool.false_eq_true, if_false, hm, List.countP_cons]
        simp [hp]
        omega
      | none =>
        simp only [process_file, hp, Bool.false_eq_true, if_false, hm, List.countP_cons]
        simp [hp]
        omega

theorem process_file_updated (profs : List Professor) (f : List GroupRec) :
    (process_file profs f).updated =
      f.any (fun g => !g.professor.isEmpty && (match_professor profs g.professor).isSome) := by
  induction f with
  | nil => rfl
  | cons g gs ih =>
    by_cases hp : g.professor.isEmpty
    · simp [process_file, hp, ih]
    · cases hm : match_professor profs g.professor with
      | some p => simp [process_file, hp, hm, ih]
      | none => simp [process_file, hp, hm, ih]

theorem process_groups_files (profs : List Professor) (files : List (List GroupRec)) :
    (process_groups profs files).files =
      files.map (fun f => ((process_file profs f).records, (process_file profs f).updated)) := by
  induction files with
  | nil => rfl
  | cons f fs ih => simp [process_groups, ih]

/-- Total record count of one pass: every record of every file. -/
def total_len (files : List (List GroupRec)) : Nat := (files.map List.length).sum

/-- Number of records with a non-empty raw professor name. -/
def count_nonempty (files : List (List GroupRec)) : Nat :=
  (files.map (fun f => f.countP (fun g => !g.professor.isEmpty))).sum

theorem process_groups_total (profs : List Professor) (files : List (List GroupRec)) :
    (process_groups profs files).total = total_len files := by
  induction files with
  | nil => rfl
  | cons f fs ih => simp [process_groups, total_len, process_file_total, ih]

theorem process_groups_counts (profs : List Professor) (files : List (List GroupRec)) :
    (process_groups profs files).matched + (process_groups profs files).unmatched =
      count_nonempty files := by
  induction files with
  | nil => rfl
  | cons f fs ih =>
    have hf := process_file_counts profs f
    simp [process_groups, count_nonempty] at ih ⊢
    omega

theorem match_professor_nil (name : Str) : match_professor [] name = none := by
  rw [match_professor]
  simp only [lookup_by_normalized, List.filter_nil, List.getLast?_nil, build_token_index,
    List.foldl_nil, collect_matches, List.map_nil, List.flatten_nil, List.find?_nil,
    List.length_nil]
  split
  · rfl
  · split
    · rfl
    · norm_num

theorem link_record_professor (profs : List Professor) (g : GroupRec) :
    (link_record profs g).professor = g.professor := by
  rw [link_record]
  split <;> rfl

theorem link_record_idem (profs : List Professor) (g : GroupRec) :
    link_record profs (link_record profs g) = link_record profs g := by
  by_cases hp : g.professor.isEmpty
  · simp [link_record, hp]
  · simp [link_record, hp]

theorem get_tokens_normalize_ne_empty {name : Str}
    (h : (normalize_name name).isEmpty = false) :
    get_tokens (normalize_name name) ≠ ∅ := by
  rw [normalize_name_eq] at h ⊢
  obtain ⟨w, t, hwt⟩ : ∃ w t, norm_words name = w :: t := by
    cases hcase : norm_words name with
    | nil => rw [hcase, join_space_nil] at h; simp at h
    | cons a b => exact ⟨a, b, rfl⟩
  rw [get_tokens, get_tokens_list, if_neg (by simp [h]), split_join (norm_words_good name), hwt]
  intro hemp
  have hmem : w ∈ ((w :: t).dedup).toFinset := by
    rw [List.mem_toFinset, List.mem_dedup]
    exact List.mem_cons_self _ _
  rw [hemp] at hmem
  exact Finset.not_mem_empty w hmem

theorem link_record_nil (g : GroupRec) :
    link_record [] g =
      if g.professor.isEmpty then g else { g with professor_id := some none } := by
  simp [link_record, match_professor_nil]

theorem process_file_matched_nil (f : List GroupRec) :
    (process_file [] f).matched = 0 := by
  induction f with
  | nil => rfl
  | cons g gs ih =>
    by_cases hp : g.professor.isEmpty
    · simp [process_file, hp, ih]
    · simp [process_file, hp, match_professor_nil, ih]

theorem process_groups_matched_nil (files : List (List GroupRec)) :
    (process_groups [] files).matched = 0 := by
  induction files with
  | nil => rfl
  | cons f fs ih => simp [process_groups, process_file_matched_nil, ih]

theorem count_le_total (files : List (List GroupRec)) :
    count_nonempty files ≤ total_len files := by
  induction files with
  | nil => exact Nat.le_refl 0
  | cons f fs ih =>
    have hf : f.countP (fun g => !g.professor.isEmpty) ≤ f.length :=
      List.countP_le_length _
    simp only [count_nonempty, total_len, List.map_cons, List.sum_cons] at ih ⊢
    omega

theorem count_eq_total_iff (files : List (List GroupRec)) :
    count_nonempty files = total_len files ↔
      ∀ f ∈ files, ∀ g ∈ f, g.professor ≠ [] := by
  induction files with
  | nil => simp [count_nonempty, total_len]
  | cons f fs ih =>
    have hf : f.countP (fun g => !g.professor.isEmpty) ≤ f.length :=
      List.countP_le_length _
    have hfs := count_le_total fs
    have hcount : f.countP (fun g => !g.professor.isEmpty) = f.length ↔
        ∀ g ∈ f, g.professor ≠ [] := by
      rw [List.countP_eq_length]
      constructor
      · intro hall g hg
        have := hall g hg
        simpa using this
      · intro hall g hg
        simpa using hall g hg
    have hsplit : count_nonempty (f :: fs) =
        f.countP (fun g => !g.professor.isEmpty) + count_nonempty fs := by
      simp [count_nonempty]
    have htot : total_len (f :: fs) = f.length + total_len fs := by
      simp [total_len]
    rw [hsplit, htot]
    constructor
    · intro heq
      have h1 : f.countP (fun g => !g.professor.isEmpty) = f.length := by omega
      have h2 : count_nonempty fs = total_len fs := by omega
      intro u hu
      rcases List.mem_cons.mp hu with hu' | hu'
      · subst hu'; exact hcount.mp h1
      · exact (ih.mp h2) u hu'
    · intro hall
      have h1 : f.countP (fun g => !g.professor.isEmpty) = f.length :=
        hcount.mpr (hall f (List.mem_cons_self _ _))
      have h2 : count_nonempty fs = total_len fs :=
        ih.mpr (fun u hu => hall u (List.mem_cons_of_mem _ hu))
      omega

/-! ### Concrete scenario data used by the claims -/

set_option maxRecDepth 10000

/-- Convenience: a Lean string literal as a modelled Python string. -/
def strOf (s : String) : Str := s.toList

/-- The roster of the end-to-end scenario in the spec: one canonical record
with id 7 and full name `JUAN PEREZ`. -/
def c1_roster : List Professor :=
  [⟨7, strOf "JUAN PEREZ", strOf "JUAN", strOf "PEREZ", 40, 4⟩]

/-- The reference group of the end-to-end scenario: two records named
`Dr. Juan Pérez` and one with an empty name, none linked yet. -/
def c1_file : List GroupRec :=
  [⟨strOf "Dr. Juan Pérez", none⟩, ⟨strOf "Dr. Juan Pérez", none⟩, ⟨strOf "", none⟩]

/-- A single-record reference group whose raw name is empty. -/
def c2_file : List GroupRec := [⟨strOf "", none⟩]

/-- One-record roster used for the fallback-direction claim. -/
def c3_roster : List Professor :=
  [⟨1, strOf "JUAN PEREZ", strOf "JUAN", strOf "PEREZ", 2, 5⟩]

/-- A query that is strictly shorter than the only roster name. -/
def c3_query : Str := strOf "JUAN"

/-- A reference group with one already-linked record whose name matches no
roster entry (the roster being empty). -/
def c4_file : List GroupRec := [⟨strOf "X", some (some 7)⟩]

/-- The two-candidate roster of the ambiguity-tie-break claim. -/
def c5_roster : List Professor :=
  [⟨1, strOf "JUAN PEREZ", strOf "JUAN", strOf "PEREZ", 5, 4⟩,
   ⟨2, strOf "JUAN CARLOS PEREZ", strOf "JUAN CARLOS", strOf "PEREZ", 3, 5⟩]

/-- First observation of the consolidation-weighting claim. -/
def c8_o1 : Professor := ⟨1, strOf "JUAN PEREZ", strOf "Juan", strOf "Perez", 10, 4⟩

/-- Second observation of the consolidation-weighting claim. -/
def c8_o2 : Professor := ⟨2, strOf "JUAN PEREZ", strOf "J.", strOf "Perez", 30, 5⟩

/-! ### Claims -/

/-- C2, counterexample.  A pass over a single group whose only record has an
empty raw name yields `totalCount = 1` although there are zero non-empty-named
records: empty-named records are counted in `totalCount`, contradicting the
claim that `totalCount` equals the number of non-empty-named records. -/
theorem C2_counterexample :
    (process_groups [] [c2_file]).total = 1 ∧ count_nonempty [c2_file] = 0 ∧
      (1 : Nat) ≠ 0 := by
  decide

/-- C2, amended.  In every linkage pass `totalCount` counts all reference
records, empty-named ones included; empty-named records contribute neither to
`matchedCount` nor to `unmatchedCount`, so `matchedCount + unmatchedCount`
equals the number of records with a non-empty raw name. -/
theorem C2_amended (profs : List Professor) (files : List (List GroupRec)) :
    (process_groups profs files).total = total_len files ∧
    (process_groups profs files).matched + (process_groups profs files).unmatched =
      count_nonempty files :=
  ⟨process_groups_total profs files, process_groups_counts profs files⟩

/-- C4, counterexample.  With an empty roster, a group whose one record had
`professor_id = 7` gets that field changed to `null`, yet the `updated` flag
stays `false` and the group is not written back — contradicting the claim that
a group with a changed field is persisted. -/
theorem C4_counterexample :
    (process_file [] c4_file).records ≠ c4_file ∧
      (process_file [] c4_file).updated = false := by
  decide

/-- C4, amended.  A reference group is written back if and only if at least one
of its records has a non-empty raw name that matched a roster entry; setting
`professor_id` to `null` never triggers a write (even when it changes the
stored field), and a successful match triggers a write even when the stored
value is unchanged. -/
theorem C4_amended (profs : List Professor) (file : List GroupRec) :
    (process_file profs file).updated =
      file.any (fun g => !g.professor.isEmpty && (match_professor profs g.professor).isSome) :=
  process_file_updated profs file

/-- C9.  With an empty (or absent, hence empty) roster the pass still runs:
every raw name resolves to no match, every non-empty-named record has its
`professor_id` set to `null`, no file is written back, and `matchedCount = 0`. -/
theorem C9_missing_roster (files : List (List GroupRec)) :
    (process_groups [] files).matched = 0 ∧
    (∀ name : Str, match_professor [] name = none) ∧
    (process_groups [] files).files =
      files.map (fun f =>
        (f.map (fun g => if g.professor.isEmpty then g
          else { g with professor_id := some none }), false)) := by
  refine ⟨process_groups_matched_nil files, match_professor_nil, ?_⟩
  rw [process_groups_files]
  apply List.map_congr_left
  intro f _
  refine Prod.ext ?_ ?_
  · show (process_file [] f).records = _
    rw [process_file_records]
    exact List.map_congr_left (fun g _ => link_record_nil g)
  · show (process_file [] f).updated = false
    rw [process_file_updated]
    simp [match_professor_nil]

/-- C7.  Linkage is idempotent: a second pass over the state the first pass
left on disk (written files hold the mutated records, unwritten ones their old
contents) produces exactly the same mutated records as the first pass, because
the per-record update depends only on the raw name, which the pass never
touches. -/
theorem C7_linkage_idempotent (profs : List Professor) (files : List (List GroupRec)) :
    (process_groups profs (disk_after profs files)).files.map Prod.fst =
      (process_groups profs files).files.map Prod.fst := by
  have key : ∀ fl : List (List GroupRec),
      (process_groups profs fl).files.map Prod.fst =
        fl.map (fun f => f.map (link_record profs)) := by
    intro fl
    rw [process_groups_files, List.map_map]
    apply List.map_congr_left
    intro f _
    show (process_file profs f).records = _
    rw [process_file_records]
  rw [key, key, disk_after, List.map_map]
  apply List.map_congr_left
  intro f _
  show (fun f => f.map (link_record profs))
      (if (process_file profs f).updated then (process_file profs f).records else f) =
    f.map (link_record profs)
  by_cases hu : (process_file profs f).updated
  · rw [if_pos hu, process_file_records]
    show List.map (link_record profs) (List.map (link_record profs) f) =
      List.map (link_record profs) f
    rw [List.map_map]
    exact List.map_congr_left (fun g _ => link_record_idem profs g)
  · rw [if_neg hu]

/-- C10.  Counter invariant of every pass: `matched + unmatched` equals the
number of non-empty-named records, `totalCount` counts every record, so
`matched + unmatched ≤ totalCount` with strict inequality exactly when some
record has an empty raw name; and every non-empty-named record leaves the pass
with its `professor_id` field explicitly set. -/
theorem C10_counter_invariant (profs : List Professor) (files : List (List GroupRec)) :
    (process_groups profs files).matched + (process_groups profs files).unmatched =
        count_nonempty files ∧
    (process_groups profs files).total = total_len files ∧
    (process_groups profs files).matched + (process_groups profs files).unmatched ≤
        (process_groups profs files).total ∧
    ((process_groups profs files).matched + (process_groups profs files).unmatched <
        (process_groups profs files).total ↔ ∃ f ∈ files, ∃ g ∈ f, g.professor = []) ∧
    ∀ fb ∈ (process_groups profs files).files, ∀ g ∈ fb.1,
      g.professor ≠ [] → g.professor_id.isSome = true := by
  have hc := process_groups_counts profs files
  have ht := process_groups_total profs files
  have hle := count_le_total files
  refine ⟨hc, ht, by omega, ?_, ?_⟩
  · rw [hc, ht]
    constructor
    · intro hlt
      by_contra hno
      push_neg at hno
      have := (count_eq_total_iff files).mpr hno
      omega
    · rintro ⟨f, hf, g, hg, hemp⟩
      have hne : ¬ ∀ u ∈ files, ∀ g ∈ u, g.professor ≠ [] := by
        intro hall
        exact hall f hf g hg hemp
      have : count_nonempty files ≠ total_len files := fun he =>
        hne ((count_eq_total_iff files).mp he)
      omega
  · intro fb hfb g hg hne
    rw [process_groups_files] at hfb
    obtain ⟨f, hf, rfl⟩ := List.mem_map.mp hfb
    have hg' : g ∈ (process_file profs f).records := hg
    rw [process_file_records] at hg'
    obtain ⟨g0, hg0, rfl⟩ := List.mem_map.mp hg'
    by_cases hp : g0.professor.isEmpty
    · exfalso
      apply hne
      rw [link_record, if_pos hp]
      exact List.isEmpty_iff.mp hp
    · rw [link_record, if_neg hp]
      rfl

/-- C1, counterexample.  In the spec's end-to-end scenario the linker does not
resolve `Dr. Juan Pérez` to roster id 7: its normalization deletes the accented
`É` outright (`JUAN PREZ`), which matches `JUAN PEREZ` in no stage, so both
non-empty records get `professor_id = null`, not 7; and the empty-named record
is counted in `totalCount` (3, not 2). -/
theorem C1_counterexample :
    match_professor c1_roster (strOf "Dr. Juan Pérez") = none ∧
    (process_groups c1_roster [c1_file]).files.map (fun fb => fb.1.map GroupRec.professor_id) =
      [[some none, some none, none]] ∧
    (some (none : Option Nat)) ≠ some (some 7) ∧
    (process_groups c1_roster [c1_file]).total = 3 ∧ (3 : Nat) ≠ 2 := by
  decide

/-- C1, amended.  In the end-to-end scenario the pass sets
`professor_id = null` on both records named `Dr. Juan Pérez` (the linker-side
normalization deletes the accented vowel instead of substituting it, so the
name matches nothing), leaves the empty-named record without the foreign-key
field, counts all three records in `totalCount` (matched 0, total 3,
unmatched 2), and does not write the group back. -/
theorem C1_amended :
    process_groups c1_roster [c1_file] =
      ⟨[([⟨strOf "Dr. Juan Pérez", some none⟩, ⟨strOf "Dr. Juan Pérez", some none⟩,
          ⟨strOf "", none⟩], false)], 0, 3, 2⟩ := by
  decide

/-- C3, counterexample.  Query `JUAN` against a roster holding only
`JUAN PEREZ` misses the exact index and collects no token-subset candidate, so
the fallback runs; no roster record's token set is a subset of the query's
token set, yet the matcher returns the roster record — the fallback tests the
opposite containment (query tokens ⊆ roster tokens), contradicting the claim's
direction. -/
theorem C3_counterexample :
    lookup_by_normalized c3_roster (normalize_name c3_query) = none ∧
    collect_matches (build_token_index c3_roster) (get_tokens (normalize_name c3_query)) = [] ∧
    (∀ p ∈ c3_roster, ¬ get_tokens p.full_name ⊆ get_tokens (normalize_name c3_query)) ∧
    match_professor c3_roster c3_query =
      some ⟨1, strOf "JUAN PEREZ", strOf "JUAN", strOf "PEREZ", 2, 5⟩ := by
  decide

/-- C3, amended.  For every query whose normalized form hit neither the exact
index nor the token-subset stage, the matcher scans the full roster and returns
the first record in roster iteration order whose token set is a superset of the
query's token set (query tokens ⊆ roster-record tokens), and no match if no
roster record's token set contains the query's (`List.find?` returns exactly
the first satisfying element, or `none`). -/
theorem C3_amended (profs : List Professor) (name : Str)
    (h1 : (normalize_name name).isEmpty = false)
    (h2 : lookup_by_normalized profs (normalize_name name) = none)
    (h3 : collect_matches (build_token_index profs) (get_tokens (normalize_name name)) = []) :
    match_professor profs name =
      profs.find? (fun p => decide (get_tokens (normalize_name name) ⊆ get_tokens p.full_name)) := by
  have htok := get_tokens_normalize_ne_empty h1
  unfold match_professor
  simp only [h1, Bool.false_eq_true, if_false, h2, h3, if_neg htok, List.length_nil]
  norm_num

/-- C3, witness for the amended theorem at the concrete roster and query of the
counterexample. -/
theorem C3_witness :
    (normalize_name c3_query).isEmpty = false ∧
      match_professor c3_roster c3_query =
        c3_roster.find?
          (fun p => decide (get_tokens (normalize_name c3_query) ⊆ get_tokens p.full_name)) :=
  ⟨by decide, C3_amended c3_roster c3_query (by decide) (by decide) (by decide)⟩

/-- C5, counterexample.  For query `JUAN PEREZ GARCIA` against the roster
{`JUAN PEREZ`, `JUAN CARLOS PEREZ`} only the 2-token record survives the
token-subset stage (`CARLOS` is not among the query's tokens), so no tie-break
happens and the matcher returns id 1 (`JUAN PEREZ`), not the 3-token record —
contradicting the claim that both candidates survive and the 3-token record
wins. -/
theorem C5_counterexample :
    (collect_matches (build_token_index c5_roster)
        (get_tokens (normalize_name (strOf "JUAN PEREZ GARCIA")))).map Professor.id = [1] ∧
    (match_professor c5_roster (strOf "JUAN PEREZ GARCIA")).map Professor.id = some 1 ∧
    (1 : Nat) ≠ 2 := by
  decide

/-- C5, amended.  For query `JUAN PEREZ GARCIA` only the 2-token roster record
survives the subset test and is returned unambiguously; the claimed tie-break
does fire for the query `JUAN CARLOS PEREZ GARCIA`, where both candidates
survive and the descending-token-count sort returns the 3-token record
`JUAN CARLOS PEREZ` (id 2). -/
theorem C5_amended :
    (match_professor c5_roster (strOf "JUAN PEREZ GARCIA")).map Professor.id = some 1 ∧
    (collect_matches (build_token_index c5_roster)
        (get_tokens (normalize_name (strOf "JUAN CARLOS PEREZ GARCIA")))).map Professor.id =
      [1, 2] ∧
    (match_professor c5_roster (strOf "JUAN CARLOS PEREZ GARCIA")).map Professor.id = some 2 := by
  decide

/-- C6, counterexample.  Normalization is not idempotent on every string: the
title scan runs once per application, so a name carrying two stacked titles,
`DR DR JUAN`, normalizes to `DR JUAN`, and normalizing again strips the second
`DR`, giving `JUAN`. -/
theorem C6_counterexample :
    normalize_name (normalize_name (strOf "DR DR JUAN")) ≠
      normalize_name (strOf "DR DR JUAN") := by
  decide

/-- C6, amended.  The matcher-side normalization is idempotent on every input
whose once-normalized form is a fixpoint of academic-title stripping (i.e.
whose normalized form does not itself begin with a title); for such `x`,
`normalize(normalize(x)) = normalize(x)`. -/
theorem C6_amended (x : Str)
    (h : remove_academic_title (normalize_name x) = normalize_name x) :
    normalize_name (normalize_name x) = normalize_name x := by
  rw [normalize_name_eq x] at h ⊢
  exact normalize_join (norm_words_good x) (norm_words_allowed x) (norm_words_keep x) h

/-- C6, witness for the amended theorem at `Dr. Juan Pérez`, whose normalized
form `JUAN PREZ` starts with no academic title. -/
theorem C6_witness :
    remove_academic_title (normalize_name (strOf "Dr. Juan Pérez")) =
        normalize_name (strOf "Dr. Juan Pérez") ∧
      normalize_name (normalize_name (strOf "Dr. Juan Pérez")) =
        normalize_name (strOf "Dr. Juan Pérez") :=
  ⟨by decide, C6_amended _ (by decide)⟩

/-- C8.  Consolidating the two same-named observations
`{id 1, count 10, rating 4.0}` and `{id 2, count 30, rating 5.0}` yields one
record anchored on id 2 (the larger rating count), with `num_ratings = 40` and
rating `4.75`, the count-weighted mean rounded to two decimals. -/
theorem C8_consolidation :
    consolidate [c8_o1, c8_o2] =
      [⟨2, strOf "JUAN PEREZ", strOf "J.", strOf "Perez", 40, (4.75 : ℚ)⟩] := by
  have hg : build_groups (List.filter (fun p => decide (1 < p.num_ratings)) [c8_o1, c8_o2]) =
      [(strOf "JUAN PEREZ", [c8_o1, c8_o2])] := by decide
  unfold consolidate
  simp only [hg, List.map_cons, List.map_nil]
  show [merge [c8_o1, c8_o2]] = _
  have hmax : max_by_ratings c8_o1 [c8_o2] = c8_o2 := by decide
  have htot : List.foldl (fun acc p => acc + p.num_ratings) 0 [c8_o1, c8_o2] = 40 := by decide
  have hsum : List.foldl (fun (acc : ℚ) p => acc + p.rating * (p.num_ratings : ℚ)) 0
      [c8_o1, c8_o2] = 190 := by
    simp [c8_o1, c8_o2]
    norm_num
  have havg : py_round2 ((19 : ℚ) / 4) = 19 / 4 := by
    have h475 : (19 : ℚ) / 4 * 100 = 475 := by norm_num
    rw [py_round2, round_half_even, h475]
    norm_num
  simp only [merge]
  rw [hmax, htot, hsum]
  norm_num [havg, c8_o2]
